import Mathlib

set_option maxRecDepth 100000

/-!
Verification of the `logseq-plugin-task-check-date` plugin (`src/index.ts`).

The development shallowly embeds the plugin's pure logic:
* the comma-separated marker-set configuration splitting (`splitTaskMarkers`);
* the content/property reconciler (`getUpdatedBlockContent`);
* the change reactor (`onChangedHandler`), with the host's date formatter and
  clock passed in as parameters;
* the weekly-query slash command (`weeklyCommand`), with the host's
  block-insertion results passed in as an oracle.

JavaScript strings are modelled as Lean `String`; splitting on a separator
character, trimming, and the first-match replacement of the regular expression
`E{1,3}` are implemented structurally on the character list so concrete runs
evaluate inside the kernel.  JavaScript objects (property maps) are modelled as
association lists with JavaScript assignment/`delete`/`in` semantics
(`objSet`, `removeProps`, `hasKey`); truthiness of a property value is
modelled for string values (absent or `""` is falsy).
-/

/-! ## JavaScript string primitives -/

/-- `String.prototype.split` with a one-character separator, on the character
list.  The accumulator holds the current chunk reversed. -/
def splitAux (sep : Char) : List Char → List Char → List (List Char)
  | [], acc => [acc.reverse]
  | c :: cs, acc =>
    if c = sep then acc.reverse :: splitAux sep cs []
    else splitAux sep cs (c :: acc)

/-- `s.split(sep)` for a one-character separator (JavaScript semantics:
`"".split(",") = [""]`, separators at the ends yield empty chunks). -/
def jsSplitChar (sep : Char) (s : String) : List String :=
  (splitAux sep s.data []).map (fun l => String.mk l)

/-- `Array.prototype.join(sep)` restricted to string elements. -/
def joinSep (sep : String) : List String → String
  | [] => ""
  | [x] => x
  | x :: y :: ys => x ++ sep ++ joinSep sep (y :: ys)

/-- `s.startsWith(p)`. -/
def jsStartsWith (s p : String) : Bool :=
  p.data.isPrefixOf s.data

/-- Whitespace for `String.prototype.trim` (the characters that occur in
practice). -/
def jsIsWs (c : Char) : Bool :=
  c = ' ' || c = '\t' || c = '\n' || c = '\r'

/-- `s.trim()`. -/
def jsTrim (s : String) : String :=
  String.mk (((s.data.dropWhile jsIsWs).reverse.dropWhile jsIsWs).reverse)

/-- After the first `E` of the first run has been matched by `/E{1,3}/`, the
regular expression greedily consumes up to two further `E`s. -/
def dropUpToTwoE : List Char → List Char
  | [] => []
  | [c1] => if c1 = 'E' then [] else [c1]
  | c1 :: c2 :: rest2 =>
    if c1 = 'E' then (if c2 = 'E' then rest2 else c2 :: rest2)
    else c1 :: c2 :: rest2

/-- Character-list worker for `s.replace(/E{1,3}/, "EEE")`: only the first
match (at the first `E` in the string, greedy up to three `E`s) is replaced,
because the regular expression is not global. -/
def replaceEAux : List Char → List Char
  | [] => []
  | c :: rest =>
    if c = 'E' then 'E' :: 'E' :: 'E' :: dropUpToTwoE rest
    else c :: replaceEAux rest

/-- `preferredDateFormat.replace(/E{1,3}/, "EEE")` — the plugin's workaround
for the host's `E`/`EE`/`EEE` weekday-pattern defect. -/
def replaceEEE (s : String) : String :=
  String.mk (replaceEAux s.data)

/-! ## Data model -/

/-- The plugin settings read from `logseq.settings` (see `SETTINGS_SCHEMA`). -/
structure Settings where
  taskMarkers : Option String
  taskMarkersComplete : Option String
  includeDate : Bool
  completedDateProperty : String
  includeTime : Bool
  completedTimeProperty : String
  timeFormat : String
deriving DecidableEq

/-- A changed-block snapshot: the attributes of `BlockEntity` the plugin
reads.  The property map is an association list of string keys and string
values (absence of the map is modelled as `[]`). -/
structure Block where
  uuid : String
  marker : Option String
  content : String
  properties : List (String × String)
deriving DecidableEq

/-- One `logseq.Editor.updateBlock(uuid, content, { properties })` request. -/
structure UpdateCall where
  uuid : String
  content : String
  properties : List (String × String)
deriving DecidableEq

/-- The `UpdateProperties` argument of `getUpdatedBlockContent`. -/
structure UpdateProperties where
  add : List (String × String)
  remove : List String
deriving DecidableEq

/-- One `logseq.Editor.insertBlock(target, content, opts)` request issued by
the slash command, with the `before`/`sibling` options. -/
structure InsertCall where
  target : String
  content : String
  before : Bool
  sibling : Bool
deriving DecidableEq

/-! ## Property-map operations (JavaScript object semantics) -/

/-- `key in obj`. -/
def hasKey : List (String × String) → String → Bool
  | [], _ => false
  | p :: ps, k => (p.1 == k) || hasKey ps k

/-- `obj[key]` (the first entry with the key, since keys of a JavaScript
object are unique), `undefined` modelled as `none`. -/
def lookupProp : List (String × String) → String → Option String
  | [], _ => none
  | p :: ps, k => if p.1 == k then some p.2 else lookupProp ps k

/-- Truthiness of a possibly-absent string value: `undefined` and `""` are
falsy. -/
def truthy : Option String → Bool
  | none => false
  | some v => v != ""

/-- `obj[key] = value`: overwrite in place when the key exists, else append
(JavaScript string-keyed insertion order). -/
def objSet (m : List (String × String)) (k v : String) : List (String × String) :=
  if hasKey m k then m.map (fun p => if p.1 == k then (k, v) else p)
  else m ++ [(k, v)]

/-- `{ ...m, ...adds }` for an entry list `adds` (later entries win). -/
def mergeProps (m : List (String × String)) (adds : List (String × String)) : List (String × String) :=
  adds.foldl (fun acc kv => objSet acc kv.1 kv.2) m

/-- `for (const k of ks) delete obj[k]`. -/
def removeProps (m : List (String × String)) (ks : List String) : List (String × String) :=
  ks.foldl (fun acc k => acc.filter (fun p => !(p.1 == k))) m

/-- The property map the host stores after an update request built from
`up`: the added entries spread over the original map, then the removed keys
deleted. -/
def requestProps (m : List (String × String)) (up : UpdateProperties) : List (String × String) :=
  removeProps (mergeProps m up.add) up.remove

/-! ## Marker-set splitting -/

/-- `splitTaskMarkers` from `src/index.ts`: a falsy (absent or empty)
configuration string gives `[]`, otherwise split on commas and trim each
token. -/
def splitTaskMarkers : Option String → List String
  | none => []
  | some s => if s = "" then [] else (jsSplitChar ',' s).map jsTrim

/-! ## Content/property reconciler -/

/-- The regular expression `/^(:LOGBOOK:|CLOCK:|:END:)/` used to drop
host-managed logbook lines. -/
def logbookLine (line : String) : Bool :=
  jsStartsWith line ":LOGBOOK:" || jsStartsWith line "CLOCK:" || jsStartsWith line ":END:"

/-- The `updateProperties.add?.forEach` loop of `getUpdatedBlockContent`:
append a `key:: value` line for every requested addition whose key is not in
the block's property map. -/
def addLinesFold (blockProperties : List (String × String)) (lines : List String)
    (adds : List (String × String)) : List String :=
  adds.foldl
    (fun ls kv => if hasKey blockProperties kv.1 then ls else ls ++ [kv.1 ++ ":: " ++ kv.2])
    lines

/-- The `updateProperties.remove?.forEach` loop of `getUpdatedBlockContent`:
for every requested removal whose key is in the block's property map drop
every line that starts with `key::`. -/
def removeLinesFold (blockProperties : List (String × String)) (lines : List String)
    (ks : List String) : List String :=
  ks.foldl
    (fun ls key =>
      if hasKey blockProperties key then ls.filter (fun line => !(jsStartsWith line (key ++ "::")))
      else ls)
    lines

/-- The line list produced by `getUpdatedBlockContent` before the final
join: split on newlines, drop logbook lines, run the addition loop, then the
removal loop. -/
def reconciledLines (block : Block) (updateProperties : UpdateProperties) : List String :=
  removeLinesFold block.properties
    (addLinesFold block.properties
      ((jsSplitChar '\n' block.content).filter (fun line => !(logbookLine line)))
      updateProperties.add)
    updateProperties.remove

/-- `getUpdatedBlockContent` from `src/index.ts`. -/
def getUpdatedBlockContent (block : Block) (updateProperties : UpdateProperties) : String :=
  joinSep "\n" (reconciledLines block updateProperties)

/-! ## Change reactor -/

/-- `block.marker ? markers.has(block.marker) : false` (an empty marker
string is falsy). -/
def markerIn (markers : List String) (b : Block) : Bool :=
  match b.marker with
  | some m => !(m == "") && markers.contains m
  | none => false

/-- `event.blocks.find(...)`: the first changed block whose marker is in the
tracked marker set. -/
def selectBlock (s : Settings) (blocks : List Block) : Option Block :=
  blocks.find? (fun b => markerIn (splitTaskMarkers s.taskMarkers) b)

/-- The `updateProperties` object built in the completion branch: the date
entry when the date property is not truthy and `includeDate` is set, then the
time entry when the time property is not truthy and `includeTime` is set. -/
def completionAdds (s : Settings) (dateLabel timeNow : String) (props : List (String × String)) : List (String × String) :=
  let afterDate :=
    if !(truthy (lookupProp props s.completedDateProperty)) && s.includeDate
    then objSet [] s.completedDateProperty dateLabel
    else []
  if !(truthy (lookupProp props s.completedTimeProperty)) && s.includeTime
  then objSet afterDate s.completedTimeProperty timeNow
  else afterDate

/-- Completion branch: issue an update only when at least one property entry
was added. -/
def completionUpdate (s : Settings) (dateLabel timeNow : String) (b : Block) : Option UpdateCall :=
  let updateProperties := completionAdds s dateLabel timeNow b.properties
  if updateProperties.length > 0 then
    some ⟨b.uuid,
          getUpdatedBlockContent b ⟨updateProperties, []⟩,
          mergeProps b.properties updateProperties⟩
  else none

/-- The `propertiesToRemove` list of the removal branch. -/
def propertiesToRemove (s : Settings) (b : Block) : List String :=
  (if truthy (lookupProp b.properties s.completedDateProperty) then [s.completedDateProperty] else []) ++
  (if truthy (lookupProp b.properties s.completedTimeProperty) then [s.completedTimeProperty] else [])

/-- Removal branch: issue an update when the removal list is non-empty. -/
def removalUpdate (s : Settings) (b : Block) : Option UpdateCall :=
  if (propertiesToRemove s b).length > 0 then
    some ⟨b.uuid,
          getUpdatedBlockContent b ⟨[], propertiesToRemove s b⟩,
          removeProps b.properties (propertiesToRemove s b)⟩
  else none

/-- Per-block body of the `DB.onChanged` handler, after a tracked block has
been selected. -/
def handleTaskBlock (s : Settings) (dateLabel timeNow : String) (b : Block) : Option UpdateCall :=
  if markerIn (splitTaskMarkers s.taskMarkersComplete) b then
    completionUpdate s dateLabel timeNow b
  else if truthy (lookupProp b.properties s.completedDateProperty)
          || truthy (lookupProp b.properties s.completedTimeProperty) then
    removalUpdate s b
  else none

/-- The `DB.onChanged` handler: the at-most-one `updateBlock` request it
issues for an event.  `dateForPage` abstracts `getDateForPage(new Date(), ·)`
of `logseq-dateutils` and `timeNow` abstracts `dayjs().format(timeFormat)`;
the handler applies the `E{1,3} → EEE` fix to the host's preferred date format
before formatting. -/
def onChangedHandler (s : Settings) (dateForPage : String → String)
    (preferredDateFormat : String) (timeNow : String) (blocks : List Block) : Option UpdateCall :=
  match selectBlock s blocks with
  | none => none
  | some taskBlock => handleTaskBlock s (dateForPage (replaceEEE preferredDateFormat)) timeNow taskBlock

/-! ## Weekly-query slash command -/

/-- The seven `(property completed <label>)` disjunct predicates; `df i fmt`
abstracts `getDateForPage(today.subtract(i, "day").toDate(), fmt)`. -/
def weeklyDayPredicates (df : Nat → String → String) (fmt : String) : List String :=
  (List.range 7).map (fun i => "(property completed " ++ df (i + 1) fmt ++ ")")

/-- The full query string built by the slash command.  The settings are in
scope in the source handler but are not consulted: the property name in the
query is the literal `completed`. -/
def weeklyQueryString (s : Settings) (df : Nat → String → String) (fmt : String) : String :=
  "\x7b\x7bquery (or " ++ joinSep " " (weeklyDayPredicates df fmt) ++ ") \x7d\x7d"

/-- The slash-command handler as the trace of `insertBlock` requests it
issues.  `host n` is the block identifier the host returns for the `n`-th
insertion (`none` models a null result); the source only consults the result
of the first insertion (the heading), and aborts when it is null. -/
def weeklyCommand (s : Settings) (df : Nat → String → String)
    (preferredDateFormat : String) (current : Option Block)
    (host : Nat → Option String) : List InsertCall :=
  match current with
  | none => []
  | some block =>
    let fmt := replaceEEE preferredDateFormat
    let query := weeklyQueryString s df fmt
    let headerCall : InsertCall := ⟨block.uuid, "### Tasks completed last week", true, false⟩
    match host 0 with
    | none => [headerCall]
    | some headerUuid =>
      [headerCall, ⟨headerUuid, query, false, false⟩, ⟨headerUuid, "---", false, true⟩]

/-! ## Lemmas on splitting and joining -/

/-- `joinSep` mirrored on character lists. -/
def charJoin (sep : Char) : List (List Char) → List Char
  | [] => []
  | [x] => x
  | x :: y :: ys => x ++ sep :: charJoin sep (y :: ys)

theorem splitAux_ne_nil (sep : Char) (l acc : List Char) : splitAux sep l acc ≠ [] := by
  induction l generalizing acc with
  | nil => simp [splitAux]
  | cons c cs ih =>
    simp only [splitAux]
    split
    · simp
    · exact ih _

theorem charJoin_splitAux (sep : Char) (l acc : List Char) :
    charJoin sep (splitAux sep l acc) = acc.reverse ++ l := by
  induction l generalizing acc with
  | nil => simp [splitAux, charJoin]
  | cons c cs ih =>
    simp only [splitAux]
    split
    · rename_i hc
      obtain ⟨d, ds, hds⟩ : ∃ d ds, splitAux sep cs [] = d :: ds := by
        cases hsp : splitAux sep cs [] with
        | nil => exact absurd hsp (splitAux_ne_nil sep cs [])
        | cons d ds => exact ⟨d, ds, rfl⟩
      have hjoin := ih ([] : List Char)
      rw [hds] at hjoin ⊢
      rw [charJoin, hjoin]
      simp [hc]
    · rw [ih (c :: acc)]
      simp

theorem splitAux_no_sep_mem (sep : Char) (l : List Char) :
    ∀ acc, sep ∉ acc → ∀ c ∈ splitAux sep l acc, sep ∉ c := by
  induction l with
  | nil =>
    intro acc hacc c hc
    simp only [splitAux, List.mem_singleton] at hc
    subst hc
    simpa using hacc
  | cons x xs ih =>
    intro acc hacc c hc
    simp only [splitAux] at hc
    split at hc
    · rcases List.mem_cons.mp hc with h | h
      · subst h; simpa using hacc
      · exact ih [] (by simp) c h
    · rename_i hx
      refine ih (x :: acc) ?_ c hc
      intro hmem
      rcases List.mem_cons.mp hmem with h | h
      · exact hx h.symm
      · exact hacc h

theorem splitAux_of_no_sep (sep : Char) (x : List Char) (hx : sep ∉ x) :
    ∀ acc, splitAux sep x acc = [acc.reverse ++ x] := by
  induction x with
  | nil => intro acc; simp [splitAux]
  | cons c cs ih =>
    intro acc
    have hc : ¬ (c = sep) := fun h => hx (by simp [h])
    simp only [splitAux, if_neg hc]
    rw [ih (fun h => hx (List.mem_cons_of_mem _ h)) (c :: acc)]
    simp

theorem splitAux_append_sep (sep : Char) (x rest : List Char) (hx : sep ∉ x) :
    ∀ acc, splitAux sep (x ++ sep :: rest) acc = (acc.reverse ++ x) :: splitAux sep rest [] := by
  induction x with
  | nil => intro acc; simp [splitAux]
  | cons c cs ih =>
    intro acc
    have hc : ¬ (c = sep) := fun h => hx (by simp [h])
    simp only [List.cons_append, splitAux, if_neg hc, List.append_eq]
    rw [ih (fun h => hx (List.mem_cons_of_mem _ h)) (c :: acc)]
    simp

theorem splitAux_charJoin (sep : Char) (chunks : List (List Char)) (hne : chunks ≠ [])
    (hns : ∀ c ∈ chunks, sep ∉ c) :
    splitAux sep (charJoin sep chunks) [] = chunks := by
  induction chunks with
  | nil => exact absurd rfl hne
  | cons x ys ih =>
    cases ys with
    | nil =>
      rw [charJoin, splitAux_of_no_sep sep x (hns x (by simp)) []]
      simp
    | cons y ys' =>
      rw [charJoin, splitAux_append_sep sep x _ (hns x (by simp)) []]
      rw [ih (by simp) (fun c hc => hns c (List.mem_cons_of_mem _ hc))]
      simp

theorem joinSep_data (sep : Char) (chunks : List String) :
    (joinSep (String.mk [sep]) chunks).data = charJoin sep (chunks.map String.data) := by
  induction chunks with
  | nil => rfl
  | cons x ys ih =>
    cases ys with
    | nil => rfl
    | cons y ys' =>
      simp only [List.map_cons]
      rw [joinSep, charJoin]
      rw [String.data_append, String.data_append, ih]
      simp only [List.map_cons]
      simp

theorem joinSep_jsSplitChar (sep : Char) (s : String) :
    joinSep (String.mk [sep]) (jsSplitChar sep s) = s := by
  have hdata : (joinSep (String.mk [sep]) (jsSplitChar sep s)).data = s.data := by
    rw [joinSep_data]
    unfold jsSplitChar
    rw [List.map_map]
    have hcomp : (String.data ∘ fun l : List Char => String.mk l) = id := funext (fun l => rfl)
    rw [hcomp, List.map_id, charJoin_splitAux]
    simp
  calc joinSep (String.mk [sep]) (jsSplitChar sep s)
      = String.mk (joinSep (String.mk [sep]) (jsSplitChar sep s)).data := rfl
    _ = String.mk s.data := by rw [hdata]
    _ = s := rfl

theorem jsSplitChar_joinSep (sep : Char) (chunks : List String) (hne : chunks ≠ [])
    (hns : ∀ c ∈ chunks, sep ∉ c.data) :
    jsSplitChar sep (joinSep (String.mk [sep]) chunks) = chunks := by
  unfold jsSplitChar
  have hrw : (joinSep (String.mk [sep]) chunks).data = charJoin sep (chunks.map String.data) :=
    joinSep_data sep chunks
  rw [hrw, splitAux_charJoin sep _ (by simpa using hne) ?hns]
  · rw [List.map_map]
    have hcomp : ((fun l : List Char => String.mk l) ∘ String.data) = id := funext (fun t => rfl)
    rw [hcomp, List.map_id]
  · intro c hc
    obtain ⟨t, ht, rfl⟩ := List.mem_map.mp hc
    exact hns t ht

theorem mem_jsSplitChar_no_sep (sep : Char) (s : String) :
    ∀ c ∈ jsSplitChar sep s, sep ∉ c.data := by
  intro c hc
  obtain ⟨l, hl, rfl⟩ := List.mem_map.mp hc
  exact splitAux_no_sep_mem sep s.data [] (by simp) l hl

/-! ## Lemmas on property maps -/

theorem hasKey_eq_isSome (m : List (String × String)) (k : String) :
    hasKey m k = (lookupProp m k).isSome := by
  induction m with
  | nil => rfl
  | cons p ps ih => by_cases h : p.1 = k <;> simp [hasKey, lookupProp, h, ih]

theorem lookupProp_filter_ne (m : List (String × String)) (r k : String) :
    lookupProp (m.filter (fun p => !(p.1 == r))) k =
      if k = r then none else lookupProp m k := by
  induction m with
  | nil => simp [lookupProp]
  | cons p ps ih =>
    by_cases hpr : p.1 = r <;> by_cases hpk : p.1 = k <;> by_cases hkr : k = r <;>
      simp_all [List.filter_cons, lookupProp]

theorem removeProps_cons (m : List (String × String)) (r : String) (rs : List String) :
    removeProps m (r :: rs) = removeProps (m.filter (fun p => !(p.1 == r))) rs := rfl

theorem lookupProp_removeProps (m : List (String × String)) (ks : List String) (k : String) :
    lookupProp (removeProps m ks) k = if k ∈ ks then none else lookupProp m k := by
  induction ks generalizing m with
  | nil => simp [removeProps]
  | cons r rs ih =>
    rw [removeProps_cons, ih]
    by_cases hk : k ∈ rs
    · simp [hk]
    · rw [lookupProp_filter_ne]
      by_cases hkr : k = r <;> simp [hk, hkr]

theorem hasKey_removeProps (m : List (String × String)) (ks : List String) (k : String) :
    hasKey (removeProps m ks) k = if k ∈ ks then false else hasKey m k := by
  rw [hasKey_eq_isSome, lookupProp_removeProps, hasKey_eq_isSome]
  by_cases h : k ∈ ks <;> simp [h]


theorem lookupProp_map_set_self (m : List (String × String)) (k v : String)
    (hm : hasKey m k = true) :
    lookupProp (m.map (fun p => if p.1 == k then (k, v) else p)) k = some v := by
  induction m with
  | nil => simp [hasKey] at hm
  | cons p ps ih =>
    by_cases hpk : p.1 = k <;> simp_all [lookupProp, hasKey, List.map_cons]

theorem lookupProp_map_set_ne (m : List (String × String)) (k v k' : String) (h : k' ≠ k) :
    lookupProp (m.map (fun p => if p.1 == k then (k, v) else p)) k' = lookupProp m k' := by
  induction m with
  | nil => rfl
  | cons p ps ih =>
    have h2 : ¬ (k = k') := fun hh => h hh.symm
    by_cases hpk : p.1 = k <;> by_cases hpk' : p.1 = k' <;>
      simp_all [lookupProp, List.map_cons]

theorem lookupProp_append_single (m : List (String × String)) (k v : String)
    (hm : hasKey m k = false) :
    lookupProp (m ++ [(k, v)]) k = some v := by
  induction m with
  | nil => simp [lookupProp]
  | cons p ps ih =>
    have hpk : ¬ (p.1 = k) := by intro h; simp [hasKey, h] at hm
    have hm' : hasKey ps k = false := by simpa [hasKey, hpk] using hm
    simp [lookupProp, List.cons_append, hpk, ih hm']

theorem lookupProp_append_single_ne (m : List (String × String)) (k v k' : String)
    (h : k' ≠ k) :
    lookupProp (m ++ [(k, v)]) k' = lookupProp m k' := by
  induction m with
  | nil =>
    have h1 : ¬ (k = k') := fun hh => h hh.symm
    simp [lookupProp, h1]
  | cons p ps ih =>
    by_cases hpk : p.1 = k' <;> simp [lookupProp, List.cons_append, hpk, ih]

theorem lookupProp_objSet (m : List (String × String)) (k v k' : String) :
    lookupProp (objSet m k v) k' = if k' = k then some v else lookupProp m k' := by
  by_cases hk' : k' = k
  · subst hk'
    rw [if_pos rfl]
    by_cases hm : hasKey m k' = true
    · simp only [objSet, hm, if_true]
      exact lookupProp_map_set_self m k' v hm
    · have hm' : hasKey m k' = false := by simpa using hm
      simp only [objSet, hm', Bool.false_eq_true, if_false]
      exact lookupProp_append_single m k' v hm'
  · rw [if_neg hk']
    by_cases hm : hasKey m k = true
    · simp only [objSet, hm, if_true]
      exact lookupProp_map_set_ne m k v k' hk'
    · have hm' : hasKey m k = false := by simpa using hm
      simp only [objSet, hm', Bool.false_eq_true, if_false]
      exact lookupProp_append_single_ne m k v k' hk'

theorem hasKey_objSet (m : List (String × String)) (k v k' : String) :
    hasKey (objSet m k v) k' = if k' = k then true else hasKey m k' := by
  rw [hasKey_eq_isSome, lookupProp_objSet]
  by_cases h : k' = k <;> simp [h, hasKey_eq_isSome]

theorem mergeProps_cons (m : List (String × String)) (kv : String × String)
    (adds : List (String × String)) :
    mergeProps m (kv :: adds) = mergeProps (objSet m kv.1 kv.2) adds := rfl

theorem hasKey_mergeProps_mono (adds : List (String × String)) :
    ∀ m k, hasKey m k = true → hasKey (mergeProps m adds) k = true := by
  induction adds with
  | nil => intro m k h; simpa [mergeProps] using h
  | cons kv rest ih =>
    intro m k h
    rw [mergeProps_cons]
    apply ih
    rw [hasKey_objSet]
    by_cases hk : k = kv.1 <;> simp [hk, h]

theorem hasKey_mergeProps_of_mem (adds : List (String × String)) :
    ∀ m (kv : String × String), kv ∈ adds → hasKey (mergeProps m adds) kv.1 = true := by
  induction adds with
  | nil => intro m kv h; simp at h
  | cons kv0 rest ih =>
    intro m kv h
    rw [mergeProps_cons]
    rcases List.mem_cons.mp h with h1 | h1
    · subst h1
      apply hasKey_mergeProps_mono
      rw [hasKey_objSet]
      simp
    · exact ih _ kv h1

/-! ## Lemmas on the reconciler's line folds -/

theorem addLinesFold_cons (props : List (String × String)) (lines : List String)
    (kv : String × String) (adds : List (String × String)) :
    addLinesFold props lines (kv :: adds)
      = addLinesFold props
          (if hasKey props kv.1 then lines else lines ++ [kv.1 ++ ":: " ++ kv.2]) adds := rfl

theorem addLinesFold_eq (props : List (String × String)) (adds : List (String × String)) :
    ∀ lines, addLinesFold props lines adds
      = lines ++ (adds.filter (fun kv => !(hasKey props kv.1))).map
          (fun kv => kv.1 ++ ":: " ++ kv.2) := by
  induction adds with
  | nil => intro lines; simp [addLinesFold]
  | cons kv rest ih =>
    intro lines
    rw [addLinesFold_cons]
    by_cases h : hasKey props kv.1 = true
    · rw [if_pos h, ih]
      simp [List.filter_cons, h]
    · have h' : hasKey props kv.1 = false := by simpa using h
      rw [if_neg (by simp [h']), ih]
      simp [List.filter_cons, h']

theorem addLinesFold_skip (props : List (String × String)) (adds : List (String × String))
    (lines : List String) (h : ∀ kv ∈ adds, hasKey props kv.1 = true) :
    addLinesFold props lines adds = lines := by
  rw [addLinesFold_eq]
  have : adds.filter (fun kv => !(hasKey props kv.1)) = [] := by
    rw [List.filter_eq_nil_iff]
    intro kv hkv
    simp [h kv hkv]
  rw [this]
  simp

theorem removeLinesFold_cons (props : List (String × String)) (lines : List String)
    (r : String) (rs : List String) :
    removeLinesFold props lines (r :: rs)
      = removeLinesFold props
          (if hasKey props r then lines.filter (fun line => !(jsStartsWith line (r ++ "::")))
           else lines) rs := rfl

theorem removeLinesFold_skip (props : List (String × String)) (ks : List String)
    (lines : List String) (h : ∀ k ∈ ks, hasKey props k = false) :
    removeLinesFold props lines ks = lines := by
  induction ks generalizing lines with
  | nil => rfl
  | cons r rs ih =>
    rw [removeLinesFold_cons, if_neg (by simp [h r (List.mem_cons_self r rs)])]
    exact ih lines (fun k hk => h k (List.mem_cons_of_mem _ hk))

theorem mem_removeLinesFold (props : List (String × String)) (ks : List String) :
    ∀ lines l, l ∈ removeLinesFold props lines ks → l ∈ lines := by
  induction ks with
  | nil => intro lines l h; exact h
  | cons r rs ih =>
    intro lines l h
    rw [removeLinesFold_cons] at h
    have h2 := ih _ l h
    by_cases hr : hasKey props r = true
    · rw [if_pos hr] at h2
      exact (List.mem_filter.mp h2).1
    · rwa [if_neg hr] at h2

theorem removeLinesFold_filter (props : List (String × String)) (ks : List String)
    (p : String → Bool)
    (hp : ∀ k ∈ ks, ∀ line, p line = true → jsStartsWith line (k ++ "::") = false) :
    ∀ lines, (removeLinesFold props lines ks).filter p = lines.filter p := by
  induction ks with
  | nil => intro lines; rfl
  | cons r rs ih =>
    intro lines
    rw [removeLinesFold_cons, ih (fun k hk => hp k (List.mem_cons_of_mem _ hk))]
    by_cases hr : hasKey props r = true
    · rw [if_pos hr, List.filter_filter]
      apply List.filter_congr
      intro x _
      by_cases hpx : p x = true
      · simp [hpx, hp r (List.mem_cons_self r rs) x hpx]
      · have : p x = false := by simpa using hpx
        simp [this]
    · rw [if_neg hr]

theorem mem_addLinesFold (props : List (String × String)) (adds : List (String × String))
    (lines : List String) (l : String) (hl : l ∈ addLinesFold props lines adds) :
    l ∈ lines ∨ ∃ kv ∈ adds, l = kv.1 ++ ":: " ++ kv.2 := by
  rw [addLinesFold_eq] at hl
  rcases List.mem_append.mp hl with h | h
  · exact Or.inl h
  · obtain ⟨kv, hkv, rfl⟩ := List.mem_map.mp h
    exact Or.inr ⟨kv, (List.mem_filter.mp hkv).1, rfl⟩

theorem mem_reconciledLines (b : Block) (up : UpdateProperties) (l : String)
    (hl : l ∈ reconciledLines b up) :
    l ∈ (jsSplitChar '\n' b.content).filter (fun line => !(logbookLine line))
    ∨ ∃ kv ∈ up.add, l = kv.1 ++ ":: " ++ kv.2 := by
  unfold reconciledLines at hl
  exact mem_addLinesFold _ _ _ _ (mem_removeLinesFold _ _ _ _ hl)

theorem reconciledLines_no_newline (b : Block) (up : UpdateProperties)
    (hnl : ∀ kv ∈ up.add, '\n' ∉ (kv.1 ++ ":: " ++ kv.2).data) :
    ∀ l ∈ reconciledLines b up, '\n' ∉ l.data := by
  intro l hl
  rcases mem_reconciledLines b up l hl with h | ⟨kv, hkv, rfl⟩
  · exact mem_jsSplitChar_no_sep '\n' b.content l (List.mem_filter.mp h).1
  · exact hnl kv hkv

theorem reconciledLines_no_logbook (b : Block) (up : UpdateProperties)
    (hlb : ∀ kv ∈ up.add, logbookLine (kv.1 ++ ":: " ++ kv.2) = false) :
    ∀ l ∈ reconciledLines b up, logbookLine l = false := by
  intro l hl
  rcases mem_reconciledLines b up l hl with h | ⟨kv, hkv, rfl⟩
  · simpa using (List.mem_filter.mp h).2
  · exact hlb kv hkv

theorem lines_getUpdatedBlockContent (b : Block) (up : UpdateProperties)
    (hnl : ∀ kv ∈ up.add, '\n' ∉ (kv.1 ++ ":: " ++ kv.2).data) :
    jsSplitChar '\n' (getUpdatedBlockContent b up)
      = if reconciledLines b up = [] then [""] else reconciledLines b up := by
  unfold getUpdatedBlockContent
  by_cases h : reconciledLines b up = []
  · rw [h, if_pos rfl]
    rfl
  · rw [if_neg h]
    exact jsSplitChar_joinSep '\n' _ h (reconciledLines_no_newline b up hnl)

/-! ## Lemmas on the change reactor -/

theorem hasKey_of_truthy (m : List (String × String)) (k : String)
    (h : truthy (lookupProp m k) = true) : hasKey m k = true := by
  rw [hasKey_eq_isSome]
  cases hl : lookupProp m k with
  | none => rw [hl] at h; simp [truthy] at h
  | some v => simp

theorem onChangedHandler_some (s : Settings) (df : String → String) (fmt tn : String)
    (blocks : List Block) (b : Block) (hsel : selectBlock s blocks = some b) :
    onChangedHandler s df fmt tn blocks = handleTaskBlock s (df (replaceEEE fmt)) tn b := by
  unfold onChangedHandler
  rw [hsel]

theorem handleTaskBlock_complete (s : Settings) (dl tn : String) (b : Block)
    (hc : markerIn (splitTaskMarkers s.taskMarkersComplete) b = true) :
    handleTaskBlock s dl tn b = completionUpdate s dl tn b := by
  simp [handleTaskBlock, hc]

theorem handleTaskBlock_removal (s : Settings) (dl tn : String) (b : Block)
    (hc : markerIn (splitTaskMarkers s.taskMarkersComplete) b = false)
    (hp : truthy (lookupProp b.properties s.completedDateProperty) = true
          ∨ truthy (lookupProp b.properties s.completedTimeProperty) = true) :
    handleTaskBlock s dl tn b = removalUpdate s b := by
  unfold handleTaskBlock
  rw [hc]
  rcases hp with h | h <;> simp [h]

theorem completionAdds_date_only (s : Settings) (dl tn : String)
    (props : List (String × String))
    (htr : truthy (lookupProp props s.completedDateProperty) = false)
    (hid : s.includeDate = true) (hit : s.includeTime = false) :
    completionAdds s dl tn props = [(s.completedDateProperty, dl)] := by
  unfold completionAdds
  rw [htr, hid, hit]
  simp [objSet, hasKey]

/-! ## Claim theorems -/

/-- **C2** (confirmed): the marker-set parser is a pure function — parsing
any string twice yields equal sets; parsing the empty string or an absent
value yields the empty set; and parsing `"A, B ,C"` yields exactly the set
`{"A", "B", "C"}` (tokens split on commas and trimmed, no case
normalization). -/
theorem C2_splitTaskMarkers_spec :
    (∀ s : Option String, splitTaskMarkers s = splitTaskMarkers s)
    ∧ splitTaskMarkers none = []
    ∧ splitTaskMarkers (some "") = []
    ∧ splitTaskMarkers (some "A, B ,C") = ["A", "B", "C"]
    ∧ (∀ x : String,
        x ∈ splitTaskMarkers (some "A, B ,C") ↔ x = "A" ∨ x = "B" ∨ x = "C") := by
  refine ⟨fun s => rfl, rfl, by decide, by decide, ?_⟩
  intro x
  have h : splitTaskMarkers (some "A, B ,C") = ["A", "B", "C"] := by decide
  rw [h]
  simp

/-- **C10** (confirmed): the weekly-query string uses the literal property
name `completed` in all 7 disjunct predicates, independent of the configured
`completedDateProperty` setting. -/
theorem C10_literal_completed_in_query :
    (∀ (s : Settings) (p : String) (df : Nat → String → String) (fmt : String),
      weeklyQueryString { s with completedDateProperty := p } df fmt
        = weeklyQueryString s df fmt)
    ∧ (∀ (df : Nat → String → String) (fmt : String),
        (weeklyDayPredicates df fmt).length = 7
        ∧ (weeklyDayPredicates df fmt).all
            (fun d => jsStartsWith d "(property completed ") = true) := by
  refine ⟨fun s p df fmt => rfl, fun df fmt => ⟨by simp [weeklyDayPredicates], ?_⟩⟩
  rw [List.all_eq_true]
  intro d hd
  obtain ⟨i, _, rfl⟩ := List.mem_map.mp hd
  unfold jsStartsWith
  rw [String.data_append, String.data_append, List.append_assoc]
  rw [List.isPrefixOf_iff_prefix]
  exact List.prefix_append _ _

/-- **C8** (amended, proved): the weekly-query command inserts, in order, a
heading before the current block, the query as a child of the heading, and a
separator as a *sibling of the heading* — the query and the separator
insertions both target the heading's identifier.  A null result for the
heading insertion aborts the remaining steps; the query insertion's result is
never consulted, so its failure does not abort the separator insertion. -/
theorem C8_weekly_insertions (s : Settings) (df : Nat → String → String)
    (fmt : String) (b : Block) (host : Nat → Option String) :
    (host 0 = none →
      weeklyCommand s df fmt (some b) host
        = [⟨b.uuid, "### Tasks completed last week", true, false⟩])
    ∧ (∀ h : String, host 0 = some h →
      weeklyCommand s df fmt (some b) host
        = [⟨b.uuid, "### Tasks completed last week", true, false⟩,
           ⟨h, weeklyQueryString s df (replaceEEE fmt), false, false⟩,
           ⟨h, "---", false, true⟩]) := by
  constructor
  · intro h0
    simp [weeklyCommand, h0]
  · intro h h0
    simp [weeklyCommand, h0]

/-- Witness for C8: both branches of the amended statement at a concrete
host. -/
theorem C8_weekly_insertions_witness :
    weeklyCommand ⟨none, none, true, "completed", false, "time", "HH:mm"⟩
        (fun _ _ => "d") "EE" (some ⟨"cur", none, "", []⟩) (fun _ => none)
      = [⟨"cur", "### Tasks completed last week", true, false⟩]
    ∧ weeklyCommand ⟨none, none, true, "completed", false, "time", "HH:mm"⟩
        (fun _ _ => "d") "EE" (some ⟨"cur", none, "", []⟩) (fun _ => some "H")
      = [⟨"cur", "### Tasks completed last week", true, false⟩,
         ⟨"H", weeklyQueryString ⟨none, none, true, "completed", false, "time", "HH:mm"⟩
                 (fun _ _ => "d") (replaceEEE "EE"), false, false⟩,
         ⟨"H", "---", false, true⟩] :=
  ⟨(C8_weekly_insertions _ _ _ _ _).1 rfl,
   (C8_weekly_insertions _ _ _ _ _).2 "H" rfl⟩

/-- Counterexample for C8: the heading insertion succeeds, the host returns
null for the query insertion (`host 1 = none`), yet the separator insertion
is still issued as a third call — and it targets the heading's identifier
`"H"`, not an identifier returned by the query insertion.  This refutes
"a failure at any insertion step aborts the remaining steps because each step
depends on the identifier returned by the previous one". -/
theorem C8_query_failure_does_not_abort :
    ((fun n => if n = 0 then some "H" else none) : Nat → Option String) 1 = none
    ∧ weeklyCommand ⟨none, none, true, "completed", false, "time", "HH:mm"⟩
        (fun _ _ => "D") "yyyy-MM-dd" (some ⟨"cur", none, "", []⟩)
        (fun n => if n = 0 then some "H" else none)
      = [⟨"cur", "### Tasks completed last week", true, false⟩,
         ⟨"H", "\x7b\x7bquery (or (property completed D) (property completed D) (property completed D) (property completed D) (property completed D) (property completed D) (property completed D)) \x7d\x7d", false, false⟩,
         ⟨"H", "---", false, true⟩] := by
  exact ⟨rfl, by decide⟩

/-- Counterexample for C4: the round trip is not byte-equal to the original
when the original text contains a logbook line — the first application
strips `:LOGBOOK:` and the removal pass cannot restore it. -/
theorem C4_round_trip_drops_logbook :
    getUpdatedBlockContent
        ⟨"u", none,
         getUpdatedBlockContent ⟨"u", none, ":LOGBOOK:\nfoo", []⟩
           ⟨[("completed", "x")], []⟩,
         [("completed", "x")]⟩
        ⟨[], ["completed"]⟩
      = "foo"
    ∧ ("foo" : String) ≠ ":LOGBOOK:\nfoo" := by
  exact ⟨by decide, by decide⟩

/-- **C4** (amended, proved): applying an addition for a key `k` absent from
the property map and then a removal for `k` against the updated block (any
property map in which `k` is now present) restores text byte-equal to the
original, with the order of all other lines preserved — provided the
original text contains no logbook line, no line already starting with
`k::`, and the added `k:: value` line contains no newline. -/
theorem C4_reconciler_round_trip (b : Block) (k v : String)
    (P : List (String × String))
    (habs : hasKey b.properties k = false)
    (hpres : hasKey P k = true)
    (hnl : '\n' ∉ (k ++ ":: " ++ v).data)
    (hnolog : ∀ l ∈ jsSplitChar '\n' b.content, logbookLine l = false)
    (hnokey : ∀ l ∈ jsSplitChar '\n' b.content, jsStartsWith l (k ++ "::") = false) :
    getUpdatedBlockContent
        ⟨b.uuid, b.marker, getUpdatedBlockContent b ⟨[(k, v)], []⟩, P⟩
        ⟨[], [k]⟩
      = b.content := by
  have hL0 : (jsSplitChar '\n' b.content).filter (fun line => !(logbookLine line))
      = jsSplitChar '\n' b.content :=
    List.filter_eq_self.mpr (fun l hl => by simp [hnolog l hl])
  have hfirstLines : reconciledLines b ⟨[(k, v)], []⟩
      = jsSplitChar '\n' b.content ++ [k ++ ":: " ++ v] := by
    unfold reconciledLines
    rw [hL0, addLinesFold_cons, if_neg (by simp [habs])]
    rfl
  have hfirst : getUpdatedBlockContent b ⟨[(k, v)], []⟩
      = joinSep "\n" (jsSplitChar '\n' b.content ++ [k ++ ":: " ++ v]) := by
    unfold getUpdatedBlockContent
    rw [hfirstLines]
  have hkstart : jsStartsWith (k ++ ":: " ++ v) (k ++ "::") = true := by
    unfold jsStartsWith
    have h1 : ("::" : String).data = [':', ':'] := rfl
    have h2 : (":: " : String).data = [':', ':', ' '] := rfl
    rw [String.data_append, String.data_append, String.data_append, h1, h2]
    rw [List.isPrefixOf_iff_prefix]
    exact ⟨' ' :: v.data, by simp⟩
  have hlines2 : jsSplitChar '\n'
      (joinSep "\n" (jsSplitChar '\n' b.content ++ [k ++ ":: " ++ v]))
      = jsSplitChar '\n' b.content ++ [k ++ ":: " ++ v] := by
    apply jsSplitChar_joinSep
    · simp
    · intro c hc
      rcases List.mem_append.mp hc with h | h
      · exact mem_jsSplitChar_no_sep '\n' b.content c h
      · rw [List.mem_singleton.mp h]
        exact hnl
  show joinSep "\n" (reconciledLines _ _) = b.content
  unfold reconciledLines
  dsimp only
  rw [hfirst, hlines2]
  rw [List.filter_append, hL0]
  have haddnil : ∀ lines, addLinesFold P lines ([] : List (String × String)) = lines :=
    fun lines => rfl
  rw [haddnil, removeLinesFold_cons, if_pos hpres]
  have hlast : (jsSplitChar '\n' b.content
        ++ [k ++ ":: " ++ v].filter (fun line => !(logbookLine line))).filter
        (fun line => !(jsStartsWith line (k ++ "::")))
      = jsSplitChar '\n' b.content := by
    rw [List.filter_append]
    have hkeep : (jsSplitChar '\n' b.content).filter
        (fun line => !(jsStartsWith line (k ++ "::"))) = jsSplitChar '\n' b.content :=
      List.filter_eq_self.mpr (fun l hl => by simp [hnokey l hl])
    have hdrop : ([k ++ ":: " ++ v].filter (fun line => !(logbookLine line))).filter
        (fun line => !(jsStartsWith line (k ++ "::"))) = [] := by
      cases hlb : logbookLine (k ++ ":: " ++ v) <;>
        simp [List.filter_cons, hlb, hkstart]
    rw [hkeep, hdrop, List.append_nil]
  rw [hlast]
  exact joinSep_jsSplitChar '\n' b.content

/-- Witness for C4: the amended round trip at a concrete block. -/
theorem C4_reconciler_round_trip_witness :
    getUpdatedBlockContent
        ⟨"u", none,
         getUpdatedBlockContent ⟨"u", none, "hello\nworld", []⟩
           ⟨[("completed", "2024-01-01")], []⟩,
         [("completed", "2024-01-01")]⟩
        ⟨[], ["completed"]⟩
      = "hello\nworld" :=
  C4_reconciler_round_trip ⟨"u", none, "hello\nworld", []⟩ "completed" "2024-01-01"
    [("completed", "2024-01-01")] (by decide) (by decide) (by decide) (by decide)
    (by decide)

/-- Counterexample for C6: an addition whose key is `":END"` produces a
content line `":END:: v"` that matches the logbook pattern, so the
reconciler's output is not logbook-free for every add request. -/
theorem C6_adversarial_add_creates_logbook_line :
    getUpdatedBlockContent ⟨"u", none, "x", []⟩ ⟨[(":END", "v")], []⟩ = "x\n:END:: v"
    ∧ (":END:: v") ∈ jsSplitChar '\n' "x\n:END:: v"
    ∧ logbookLine ":END:: v" = true := by
  exact ⟨by decide, by decide, by decide⟩

/-- **C6** (amended, proved): every line of the reconciled content fails the
logbook pattern (`:LOGBOOK:`, `CLOCK:`, `:END:` at the start of a line),
for every input text and every add/remove request whose added `key:: value`
lines do not themselves match the logbook pattern and contain no newline. -/
theorem C6_no_logbook_lines (b : Block) (up : UpdateProperties)
    (hlb : ∀ kv ∈ up.add, logbookLine (kv.1 ++ ":: " ++ kv.2) = false)
    (hnl : ∀ kv ∈ up.add, '\n' ∉ (kv.1 ++ ":: " ++ kv.2).data) :
    ∀ line ∈ jsSplitChar '\n' (getUpdatedBlockContent b up),
      logbookLine line = false := by
  intro line hline
  rw [lines_getUpdatedBlockContent b up hnl] at hline
  by_cases h : reconciledLines b up = []
  · rw [if_pos h] at hline
    rw [List.mem_singleton.mp hline]
    decide
  · rw [if_neg h] at hline
    exact reconciledLines_no_logbook b up hlb line hline

/-- Witness for C6: the amended guarantee at a concrete block whose text
contains logbook lines. -/
theorem C6_no_logbook_lines_witness :
    (jsSplitChar '\n' (getUpdatedBlockContent
        ⟨"u", none, ":LOGBOOK:\nfoo\nCLOCK: 1\n:END:", [("a", "b")]⟩
        ⟨[("completed", "2025-10-10")], []⟩)).all
      (fun l => !(logbookLine l)) = true := by
  have h := C6_no_logbook_lines
    ⟨"u", none, ":LOGBOOK:\nfoo\nCLOCK: 1\n:END:", [("a", "b")]⟩
    ⟨[("completed", "2025-10-10")], []⟩ (by decide) (by decide)
  rw [List.all_eq_true]
  intro l hl
  simp [h l hl]

/-- Counterexample for C5: for the block with content `"CLOCK:: x"` and
property map `{CLOCK: x}`, the request adding `("a", "1")` and removing
`"a"` mutates the property line of the unrelated key `CLOCK` (the logbook
filter drops it), and re-applying the same request to the reconciler's own
output (with the request's property changes applied) appends `a:: 1` a
second time — the second application is not a no-op. -/
theorem C5_clock_line_mutated_not_idempotent :
    getUpdatedBlockContent ⟨"u", none, "CLOCK:: x", [("CLOCK", "x")]⟩
        ⟨[("a", "1")], ["a"]⟩
      = "a:: 1"
    ∧ getUpdatedBlockContent
        ⟨"u", none,
         getUpdatedBlockContent ⟨"u", none, "CLOCK:: x", [("CLOCK", "x")]⟩
           ⟨[("a", "1")], ["a"]⟩,
         requestProps [("CLOCK", "x")] ⟨[("a", "1")], ["a"]⟩⟩
        ⟨[("a", "1")], ["a"]⟩
      = "a:: 1\na:: 1" := by
  exact ⟨by decide, by decide⟩

/-- **C5** (amended, proved): for every block and every request whose added
keys are disjoint from its removed keys and whose added `key:: value` lines
neither contain a newline nor match the logbook pattern, re-applying the
reconciler with the same request to the updated block (its own output
content together with the request's property changes) returns that output
unchanged; and property lines for a key `q` not named in the request — with
`q::` prefix-incompatible with the added lines and removed keys — are
exactly the `q::` lines of the logbook-stripped input, in order. -/
theorem C5_reconciler_idempotent (b : Block) (up : UpdateProperties)
    (hdisj : ∀ kv ∈ up.add, kv.1 ∉ up.remove)
    (hnl : ∀ kv ∈ up.add, '\n' ∉ (kv.1 ++ ":: " ++ kv.2).data)
    (hlb : ∀ kv ∈ up.add, logbookLine (kv.1 ++ ":: " ++ kv.2) = false) :
    getUpdatedBlockContent
        ⟨b.uuid, b.marker, getUpdatedBlockContent b up, requestProps b.properties up⟩ up
      = getUpdatedBlockContent b up
    ∧ (∀ q : String, q ∉ up.remove →
        (∀ kv ∈ up.add, jsStartsWith (kv.1 ++ ":: " ++ kv.2) (q ++ "::") = false) →
        (∀ r ∈ up.remove, jsStartsWith (q ++ "::") (r ++ "::") = false
                        ∧ jsStartsWith (r ++ "::") (q ++ "::") = false) →
        (jsSplitChar '\n' (getUpdatedBlockContent b up)).filter
            (fun line => jsStartsWith line (q ++ "::"))
          = ((jsSplitChar '\n' b.content).filter
              (fun line => !(logbookLine line))).filter
              (fun line => jsStartsWith line (q ++ "::"))) := by
  have hPadd : ∀ kv ∈ up.add, hasKey (requestProps b.properties up) kv.1 = true := by
    intro kv hkv
    unfold requestProps
    rw [hasKey_removeProps, if_neg (hdisj kv hkv)]
    exact hasKey_mergeProps_of_mem up.add b.properties kv hkv
  have hPrem : ∀ r ∈ up.remove, hasKey (requestProps b.properties up) r = false := by
    intro r hr
    unfold requestProps
    rw [hasKey_removeProps, if_pos hr]
  constructor
  · by_cases hL : reconciledLines b up = []
    · have h2 : reconciledLines
          ⟨b.uuid, b.marker, getUpdatedBlockContent b up, requestProps b.properties up⟩ up
          = [""] := by
        unfold reconciledLines
        dsimp only
        rw [lines_getUpdatedBlockContent b up hnl, if_pos hL]
        rw [show (([""] : List String).filter (fun line => !(logbookLine line))) = [""]
          from by decide]
        rw [addLinesFold_skip _ _ _ hPadd, removeLinesFold_skip _ _ _ hPrem]
      conv_lhs => rw [getUpdatedBlockContent]
      rw [h2]
      conv_rhs => rw [getUpdatedBlockContent]
      rw [hL]
      rfl
    · have h2 : reconciledLines
          ⟨b.uuid, b.marker, getUpdatedBlockContent b up, requestProps b.properties up⟩ up
          = reconciledLines b up := by
        unfold reconciledLines
        dsimp only
        rw [lines_getUpdatedBlockContent b up hnl, if_neg hL]
        rw [List.filter_eq_self.mpr
          (fun l hl => by simp [reconciledLines_no_logbook b up hlb l hl])]
        rw [addLinesFold_skip _ _ _ hPadd, removeLinesFold_skip _ _ _ hPrem]
        rfl
      conv_lhs => rw [getUpdatedBlockContent]
      rw [h2]
      rfl
  · intro q hq hqadd hqrem
    have hnotboth : ∀ r ∈ up.remove, ∀ line : String,
        jsStartsWith line (q ++ "::") = true →
        jsStartsWith line (r ++ "::") = false := by
      intro r hr line hlq
      cases hx : jsStartsWith line (r ++ "::") with
      | false => rfl
      | true =>
        exfalso
        unfold jsStartsWith at hlq hx
        have p1 := List.isPrefixOf_iff_prefix.mp hlq
        have p2 := List.isPrefixOf_iff_prefix.mp hx
        rcases List.prefix_or_prefix_of_prefix p1 p2 with hc | hc
        · have h2 := (hqrem r hr).2
          unfold jsStartsWith at h2
          rw [List.isPrefixOf_iff_prefix.mpr hc] at h2
          exact Bool.noConfusion h2
        · have h2 := (hqrem r hr).1
          unfold jsStartsWith at h2
          rw [List.isPrefixOf_iff_prefix.mpr hc] at h2
          exact Bool.noConfusion h2
    have hwork : (reconciledLines b up).filter (fun line => jsStartsWith line (q ++ "::"))
        = ((jsSplitChar '\n' b.content).filter (fun line => !(logbookLine line))).filter
            (fun line => jsStartsWith line (q ++ "::")) := by
      unfold reconciledLines
      rw [removeLinesFold_filter _ _ _ hnotboth, addLinesFold_eq, List.filter_append]
      have hadds : ((up.add.filter (fun kv => !(hasKey b.properties kv.1))).map
          (fun kv => kv.1 ++ ":: " ++ kv.2)).filter
            (fun line => jsStartsWith line (q ++ "::")) = [] := by
        rw [List.filter_eq_nil_iff]
        intro l hl
        obtain ⟨kv, hkv, rfl⟩ := List.mem_map.mp hl
        simp [hqadd kv (List.mem_filter.mp hkv).1]
      rw [hadds, List.append_nil]
    rw [lines_getUpdatedBlockContent b up hnl]
    by_cases hL : reconciledLines b up = []
    · rw [if_pos hL]
      rw [hL] at hwork
      have hempty : jsStartsWith "" (q ++ "::") = false := by
        unfold jsStartsWith
        rw [String.data_append]
        cases q.data <;> rfl
      rw [show (([""] : List String).filter (fun line => jsStartsWith line (q ++ "::")))
          = [] from by simp [hempty]]
      exact hwork
    · rw [if_neg hL]
      exact hwork

/-- Witness for C5: the amended idempotence at a concrete block and
request. -/
theorem C5_reconciler_idempotent_witness :
    getUpdatedBlockContent
        ⟨"u", none,
         getUpdatedBlockContent ⟨"u", none, "alpha\nother:: 1", [("completed", "d")]⟩
           ⟨[("a", "1")], ["completed"]⟩,
         requestProps [("completed", "d")] ⟨[("a", "1")], ["completed"]⟩⟩
        ⟨[("a", "1")], ["completed"]⟩
      = getUpdatedBlockContent ⟨"u", none, "alpha\nother:: 1", [("completed", "d")]⟩
          ⟨[("a", "1")], ["completed"]⟩ :=
  (C5_reconciler_idempotent ⟨"u", none, "alpha\nother:: 1", [("completed", "d")]⟩
    ⟨[("a", "1")], ["completed"]⟩ (by decide) (by decide) (by decide)).1

/-- Counterexample for C3: the selected block's marker `DONE` is in the
complete set, the date and time property keys are both present in the
property map (`completed` with the falsy value `""`, `time` with `"09:00"`),
yet an update request is issued, because the reactor tests the value's
truthiness rather than key membership. -/
theorem C3_key_present_falsy_still_updates :
    hasKey [("completed", ""), ("time", "09:00")] "completed" = true
    ∧ hasKey [("completed", ""), ("time", "09:00")] "time" = true
    ∧ (onChangedHandler
        ⟨some "DONE, TODO", some "DONE", true, "completed", false, "time", "HH:mm"⟩
        (fun _ => "2025-10-10") "yyyy-MM-dd" "12:00"
        [⟨"u", some "DONE", "DONE stuff", [("completed", ""), ("time", "09:00")]⟩]).isSome
      = true := by
  exact ⟨by decide, by decide, by decide⟩

/-- **C3** (amended, proved): for every changed-block event whose selected
block has a marker in the complete marker set, if for each enabled include
option the corresponding property is already present *with a truthy
(non-empty) value* — in particular when both options are disabled — no
update request is issued, so re-delivery of the same event is a no-op. -/
theorem C3_completion_noop (s : Settings) (df : String → String) (fmt tn : String)
    (blocks : List Block) (b : Block)
    (hsel : selectBlock s blocks = some b)
    (hc : markerIn (splitTaskMarkers s.taskMarkersComplete) b = true)
    (hd : s.includeDate = true →
      truthy (lookupProp b.properties s.completedDateProperty) = true)
    (ht : s.includeTime = true →
      truthy (lookupProp b.properties s.completedTimeProperty) = true) :
    onChangedHandler s df fmt tn blocks = none := by
  rw [onChangedHandler_some s df fmt tn blocks b hsel,
      handleTaskBlock_complete s _ tn b hc]
  have hadds : completionAdds s (df (replaceEEE fmt)) tn b.properties = [] := by
    unfold completionAdds
    have h1 : (!(truthy (lookupProp b.properties s.completedDateProperty))
        && s.includeDate) = false := by
      cases hid : s.includeDate
      · simp
      · simp [hd hid]
    have h2 : (!(truthy (lookupProp b.properties s.completedTimeProperty))
        && s.includeTime) = false := by
      cases hit : s.includeTime
      · simp
      · simp [ht hit]
    rw [h1, h2]
    simp
  unfold completionUpdate
  rw [hadds]
  simp

/-- Witness for C3: a completed block whose date and time properties are
both present with truthy values produces no update. -/
theorem C3_completion_noop_witness :
    onChangedHandler
        ⟨some "DONE, TODO", some "DONE", true, "completed", true, "time", "HH:mm"⟩
        (fun _ => "2025-10-10") "yyyy-MM-dd" "12:00"
        [⟨"u", some "DONE", "DONE stuff", [("completed", "2025-01-01"), ("time", "09:00")]⟩]
      = none :=
  C3_completion_noop _ _ _ _ _
    ⟨"u", some "DONE", "DONE stuff", [("completed", "2025-01-01"), ("time", "09:00")]⟩
    (by decide) (by decide) (fun _ => by decide) (fun _ => by decide)

/-- **C9** (confirmed): when the selected block's marker is in the complete
set, `includeDate` is enabled, `includeTime` is disabled, and the date
property key is present in the property map with the falsy value `""`, the
reactor treats it as absent and issues an update whose property map sets the
date property to today's label (the formatter applied to the
`E{1,3}`-normalized preferred format), while the reconciled content gains no
new `key:: value` line — the reactor tests the value's truthiness, but the
reconciler tests key membership. -/
theorem C9_falsy_date_property_update (s : Settings) (df : String → String)
    (fmt tn : String) (blocks : List Block) (b : Block)
    (hsel : selectBlock s blocks = some b)
    (hc : markerIn (splitTaskMarkers s.taskMarkersComplete) b = true)
    (hd : s.includeDate = true)
    (hfalsy : lookupProp b.properties s.completedDateProperty = some "")
    (ht : s.includeTime = false) :
    onChangedHandler s df fmt tn blocks = some
      ⟨b.uuid,
       joinSep "\n" ((jsSplitChar '\n' b.content).filter (fun line => !(logbookLine line))),
       objSet b.properties s.completedDateProperty (df (replaceEEE fmt))⟩ := by
  rw [onChangedHandler_some s df fmt tn blocks b hsel,
      handleTaskBlock_complete s _ tn b hc]
  have htr : truthy (lookupProp b.properties s.completedDateProperty) = false := by
    rw [hfalsy]; rfl
  have hadds := completionAdds_date_only s (df (replaceEEE fmt)) tn b.properties htr hd ht
  unfold completionUpdate
  rw [hadds]
  rw [if_pos (by simp)]
  have hk : hasKey b.properties s.completedDateProperty = true := by
    rw [hasKey_eq_isSome, hfalsy]; rfl
  have hcontent : getUpdatedBlockContent b
      ⟨[(s.completedDateProperty, df (replaceEEE fmt))], []⟩
      = joinSep "\n" ((jsSplitChar '\n' b.content).filter (fun line => !(logbookLine line))) := by
    unfold getUpdatedBlockContent reconciledLines
    rw [addLinesFold_cons, if_pos hk]
    rfl
  rw [hcontent]
  rfl

/-- Witness for C9: a concrete `DONE` block whose `completed` property is
present but empty gets an update that sets `completed` and leaves the
content's line set unchanged. -/
theorem C9_falsy_date_property_update_witness :
    onChangedHandler
        ⟨some "DONE, TODO", some "DONE", true, "completed", false, "time", "HH:mm"⟩
        (fun f => "<" ++ f ++ ">") "yyyy-MM-dd EE" "12:00"
        [⟨"u", some "DONE", "DONE stuff", [("completed", "")]⟩]
      = some ⟨"u",
              joinSep "\n" ((jsSplitChar '\n' "DONE stuff").filter
                (fun line => !(logbookLine line))),
              objSet [("completed", "")] "completed"
                ((fun f => "<" ++ f ++ ">") (replaceEEE "yyyy-MM-dd EE"))⟩ :=
  C9_falsy_date_property_update
    ⟨some "DONE, TODO", some "DONE", true, "completed", false, "time", "HH:mm"⟩
    (fun f => "<" ++ f ++ ">") "yyyy-MM-dd EE" "12:00" _
    ⟨"u", some "DONE", "DONE stuff", [("completed", "")]⟩
    (by decide) (by decide) rfl (by decide) rfl

theorem addLinesFold_nil (props : List (String × String)) (lines : List String) :
    addLinesFold props lines [] = lines := rfl

theorem removeLinesFold_nil (props : List (String × String)) (lines : List String) :
    removeLinesFold props lines [] = lines := rfl

theorem removeLinesFold_two (props : List (String × String)) (F : List String)
    (dT tT : Bool) (dp tp : String)
    (hkd : dT = true → hasKey props dp = true)
    (hkt : tT = true → hasKey props tp = true) :
    removeLinesFold props F ((if dT then [dp] else []) ++ (if tT then [tp] else []))
      = F.filter (fun line => !(dT && jsStartsWith line (dp ++ "::"))
          && !(tT && jsStartsWith line (tp ++ "::"))) := by
  cases dT with
  | false =>
    cases tT with
    | false =>
      have h0 : (((if (false : Bool) then [dp] else [])
          ++ (if (false : Bool) then [tp] else [])) : List String) = [] := by simp
      rw [h0, removeLinesFold_nil]
      simp
    | true =>
      have h0 : (((if (false : Bool) then [dp] else [])
          ++ (if (true : Bool) then [tp] else [])) : List String) = [tp] := by simp
      rw [h0, removeLinesFold_cons, if_pos (hkt rfl), removeLinesFold_nil]
      apply List.filter_congr
      intro x _
      simp
  | true =>
    cases tT with
    | false =>
      have h0 : (((if (true : Bool) then [dp] else [])
          ++ (if (false : Bool) then [tp] else [])) : List String) = [dp] := by simp
      rw [h0, removeLinesFold_cons, if_pos (hkd rfl), removeLinesFold_nil]
      apply List.filter_congr
      intro x _
      simp
    | true =>
      have h0 : (((if (true : Bool) then [dp] else [])
          ++ (if (true : Bool) then [tp] else [])) : List String) = [dp, tp] := by simp
      rw [h0, removeLinesFold_cons, if_pos (hkd rfl),
          removeLinesFold_cons, if_pos (hkt rfl), removeLinesFold_nil]
      rw [List.filter_filter]
      apply List.filter_congr
      intro x _
      simp [Bool.and_comm]

/-- Counterexample for C1: the selected block's marker `TODO` is not in the
complete set and its property map carries the date property `completed`
(with the falsy value `""`), yet no update request is issued — the removal
branch tests the value's truthiness, not key membership. -/
theorem C1_carried_falsy_property_no_update :
    hasKey [("completed", "")] "completed" = true
    ∧ onChangedHandler
        ⟨some "DONE, TODO", some "DONE", true, "completed", false, "time", "HH:mm"⟩
        (fun _ => "2025-10-10") "yyyy-MM-dd" "12:00"
        [⟨"u", some "TODO", "TODO stuff", [("completed", "")]⟩]
      = none := by
  exact ⟨by decide, by decide⟩

/-- **C1** (amended, proved): for every changed-block event whose selected
block has a marker not in the complete marker set but whose property map
carries the configured date property and/or time property *with a truthy
(non-empty) value*, exactly one update request is issued; its property map
removes exactly the truthy-present ones of those two properties (and no
others), and its content is the logbook-stripped original line sequence with
exactly the lines starting `key::` for each removed key dropped, in order. -/
theorem C1_removal_request (s : Settings) (df : String → String) (fmt tn : String)
    (blocks : List Block) (b : Block)
    (hsel : selectBlock s blocks = some b)
    (hnc : markerIn (splitTaskMarkers s.taskMarkersComplete) b = false)
    (hpres : truthy (lookupProp b.properties s.completedDateProperty) = true
             ∨ truthy (lookupProp b.properties s.completedTimeProperty) = true) :
    ∃ call : UpdateCall,
      onChangedHandler s df fmt tn blocks = some call
      ∧ call.uuid = b.uuid
      ∧ (∀ k : String,
          lookupProp call.properties k =
            if (truthy (lookupProp b.properties s.completedDateProperty) = true
                  ∧ k = s.completedDateProperty)
               ∨ (truthy (lookupProp b.properties s.completedTimeProperty) = true
                  ∧ k = s.completedTimeProperty)
            then none
            else lookupProp b.properties k)
      ∧ call.content = joinSep "\n"
          (((jsSplitChar '\n' b.content).filter (fun line => !(logbookLine line))).filter
            (fun line =>
              !(truthy (lookupProp b.properties s.completedDateProperty)
                  && jsStartsWith line (s.completedDateProperty ++ "::"))
              && !(truthy (lookupProp b.properties s.completedTimeProperty)
                  && jsStartsWith line (s.completedTimeProperty ++ "::")))) := by
  rw [onChangedHandler_some s df fmt tn blocks b hsel,
      handleTaskBlock_removal s _ tn b hnc hpres]
  have hlen : (propertiesToRemove s b).length > 0 := by
    unfold propertiesToRemove
    rcases hpres with h | h <;> simp [h]
  unfold removalUpdate
  rw [if_pos hlen]
  refine ⟨_, rfl, rfl, ?_, ?_⟩
  · intro k
    dsimp only
    rw [lookupProp_removeProps]
    unfold propertiesToRemove
    cases hdt : truthy (lookupProp b.properties s.completedDateProperty) <;>
      cases htt : truthy (lookupProp b.properties s.completedTimeProperty) <;>
      simp_all
  · dsimp only
    unfold getUpdatedBlockContent reconciledLines propertiesToRemove
    dsimp only
    rw [addLinesFold_nil,
        removeLinesFold_two b.properties _ _ _
          s.completedDateProperty s.completedTimeProperty
          (fun h => hasKey_of_truthy _ _ h) (fun h => hasKey_of_truthy _ _ h)]

/-- Witness for C1: a `TODO` block carrying truthy `completed` and `time`
properties gets exactly one update request with both removed. -/
theorem C1_removal_request_witness :
    ∃ call : UpdateCall,
      onChangedHandler
          ⟨some "DONE, TODO", some "DONE", true, "completed", false, "time", "HH:mm"⟩
          (fun _ => "2025-10-10") "yyyy-MM-dd" "12:00"
          [⟨"u", some "TODO", "x\ncompleted:: 2024-01-01\ntime:: 09:00",
            [("completed", "2024-01-01"), ("time", "09:00")]⟩]
        = some call
      ∧ call.uuid = "u"
      ∧ lookupProp call.properties "completed" = none
      ∧ lookupProp call.properties "time" = none
      ∧ lookupProp call.properties "other" = lookupProp
          [("completed", "2024-01-01"), ("time", "09:00")] "other" := by
  obtain ⟨call, h1, h2, h3, _⟩ := C1_removal_request
    ⟨some "DONE, TODO", some "DONE", true, "completed", false, "time", "HH:mm"⟩
    (fun _ => "2025-10-10") "yyyy-MM-dd" "12:00"
    [⟨"u", some "TODO", "x\ncompleted:: 2024-01-01\ntime:: 09:00",
      [("completed", "2024-01-01"), ("time", "09:00")]⟩]
    ⟨"u", some "TODO", "x\ncompleted:: 2024-01-01\ntime:: 09:00",
      [("completed", "2024-01-01"), ("time", "09:00")]⟩
    (by decide) (by decide) (Or.inl (by decide))
  refine ⟨call, h1, h2, ?_, ?_, ?_⟩
  · rw [h3 "completed"]
    decide
  · rw [h3 "time"]
    decide
  · rw [h3 "other"]
    decide

theorem replaceEAux_first_run (k : Nat) (h1 : 1 ≤ k) (h3 : k ≤ 3) (rest : List Char)
    (hr : rest.head? ≠ some 'E') :
    ∀ a : List Char, (∀ c ∈ a, c ≠ 'E') →
      replaceEAux (a ++ (List.replicate k 'E' ++ rest)) = a ++ (['E', 'E', 'E'] ++ rest) := by
  have hdrop1 : dropUpToTwoE rest = rest := by
    cases rest with
    | nil => rfl
    | cons d t =>
      have hd : ¬ (d = 'E') := fun h => hr (by simp [h])
      cases t <;> simp [dropUpToTwoE, hd]
  have hdrop2 : dropUpToTwoE ('E' :: rest) = rest := by
    cases rest with
    | nil => simp [dropUpToTwoE]
    | cons d t =>
      have hd : ¬ (d = 'E') := fun h => hr (by simp [h])
      simp [dropUpToTwoE, hd]
  have hdrop3 : dropUpToTwoE ('E' :: 'E' :: rest) = rest := by
    simp [dropUpToTwoE]
  intro a
  induction a with
  | nil =>
    intro _
    simp only [List.nil_append]
    interval_cases k
    · show replaceEAux ('E' :: rest) = 'E' :: 'E' :: 'E' :: rest
      simp [replaceEAux, hdrop1]
    · show replaceEAux ('E' :: 'E' :: rest) = 'E' :: 'E' :: 'E' :: rest
      simp [replaceEAux, hdrop2]
    · show replaceEAux ('E' :: 'E' :: 'E' :: rest) = 'E' :: 'E' :: 'E' :: rest
      simp [replaceEAux, hdrop3]
  | cons c a' ih =>
    intro ha
    have hc : ¬ (c = 'E') := ha c (List.mem_cons_self c a')
    simp only [List.cons_append, replaceEAux, if_neg hc, List.append_eq]
    rw [ih (fun x hx => ha x (List.mem_cons_of_mem _ hx))]
    simp

/-- Counterexample for C7: `replace(/E{1,3}/, "EEE")` is not global, so in a
format with two runs of `E`s only the first is normalized — the claim's
"any run ... is replaced" would give `"EEE-EEE"` on `"E-E"`, but the code
gives `"EEE-E"`. -/
theorem C7_only_first_E_run_replaced :
    replaceEEE "E-E" = "EEE-E" ∧ replaceEEE "E-E" ≠ "EEE-EEE" := by
  exact ⟨by decide, by decide⟩

/-- **C7** (amended, proved): the *first* run of one-to-three consecutive
`E`s in the preferred date format is replaced by exactly `EEE` (later runs
are left unchanged); the weekly-query command formats all 7 day labels with
the so-normalized format, and the change reactor formats the date-property
value with the so-normalized format. -/
theorem C7_first_run_normalized :
    (∀ (a bstr : String) (k : Nat), 1 ≤ k → k ≤ 3 →
       (∀ c ∈ a.data, c ≠ 'E') →
       bstr.data.head? ≠ some 'E' →
       replaceEEE (a ++ String.mk (List.replicate k 'E') ++ bstr) = a ++ "EEE" ++ bstr)
    ∧ (∀ (s : Settings) (df : Nat → String → String) (fmt : String) (blk : Block)
         (host : Nat → Option String) (h : String), host 0 = some h →
         (weeklyCommand s df fmt (some blk) host).map (fun c => c.content)
           = ["### Tasks completed last week",
              weeklyQueryString s df (replaceEEE fmt), "---"])
    ∧ (∀ (s : Settings) (df : String → String) (fmt tn : String)
         (blocks : List Block) (b : Block),
         selectBlock s blocks = some b →
         markerIn (splitTaskMarkers s.taskMarkersComplete) b = true →
         s.includeDate = true →
         truthy (lookupProp b.properties s.completedDateProperty) = false →
         s.includeTime = false →
         ∃ call : UpdateCall, onChangedHandler s df fmt tn blocks = some call
           ∧ lookupProp call.properties s.completedDateProperty
               = some (df (replaceEEE fmt))) := by
  refine ⟨?_, ?_, ?_⟩
  · intro a bstr k hk1 hk3 haE hbh
    unfold replaceEEE
    have hdata : (a ++ String.mk (List.replicate k 'E') ++ bstr).data
        = a.data ++ (List.replicate k 'E' ++ bstr.data) := by
      rw [String.data_append, String.data_append]
      rw [show (String.mk (List.replicate k 'E')).data = List.replicate k 'E' from rfl]
      rw [List.append_assoc]
    rw [hdata, replaceEAux_first_run k hk1 hk3 bstr.data hbh a.data haE]
    have hd : (a ++ "EEE" ++ bstr).data = a.data ++ (['E', 'E', 'E'] ++ bstr.data) := by
      rw [String.data_append, String.data_append]
      rw [show ("EEE" : String).data = ['E', 'E', 'E'] from rfl, List.append_assoc]
    calc String.mk (a.data ++ (['E', 'E', 'E'] ++ bstr.data))
        = String.mk (a ++ "EEE" ++ bstr).data := by rw [hd]
      _ = a ++ "EEE" ++ bstr := rfl
  · intro s df fmt blk host h h0
    simp [weeklyCommand, h0]
  · intro s df fmt tn blocks b hsel hc hid htr hit
    rw [onChangedHandler_some s df fmt tn blocks b hsel,
        handleTaskBlock_complete s _ tn b hc]
    have hadds := completionAdds_date_only s (df (replaceEEE fmt)) tn b.properties htr hid hit
    unfold completionUpdate
    rw [hadds, if_pos (by simp)]
    refine ⟨_, rfl, ?_⟩
    show lookupProp (mergeProps b.properties
        [(s.completedDateProperty, df (replaceEEE fmt))]) s.completedDateProperty = _
    rw [show mergeProps b.properties [(s.completedDateProperty, df (replaceEEE fmt))]
        = objSet b.properties s.completedDateProperty (df (replaceEEE fmt)) from rfl]
    rw [lookupProp_objSet]
    simp

/-- Witness for C7: all three amended conjuncts at concrete inputs — a
format `"d EE y"`-shaped string, a weekly-command run, and a reactor run,
each formatting with the normalized format. -/
theorem C7_first_run_normalized_witness :
    replaceEEE ("d " ++ String.mk (List.replicate 2 'E') ++ " y") = "d " ++ "EEE" ++ " y"
    ∧ (weeklyCommand ⟨none, none, true, "completed", false, "time", "HH:mm"⟩
        (fun _ f => f) "EE" (some ⟨"cur", none, "", []⟩) (fun _ => some "H")).map
          (fun c => c.content)
      = ["### Tasks completed last week",
         weeklyQueryString ⟨none, none, true, "completed", false, "time", "HH:mm"⟩
           (fun _ f => f) (replaceEEE "EE"), "---"]
    ∧ ∃ call : UpdateCall,
        onChangedHandler ⟨some "DONE", some "DONE", true, "completed", false, "time", "HH:mm"⟩
          (fun f => f) "EE" "12:00" [⟨"u", some "DONE", "DONE x", []⟩] = some call
        ∧ lookupProp call.properties "completed" = some ((fun f : String => f) (replaceEEE "EE")) := by
  refine ⟨C7_first_run_normalized.1 "d " " y" 2 (by decide) (by decide) (by decide) (by decide),
          C7_first_run_normalized.2.1
            ⟨none, none, true, "completed", false, "time", "HH:mm"⟩
            (fun _ f => f) "EE" ⟨"cur", none, "", []⟩ (fun _ => some "H") "H" rfl,
          C7_first_run_normalized.2.2
            ⟨some "DONE", some "DONE", true, "completed", false, "time", "HH:mm"⟩
            (fun f => f) "EE" "12:00"
            [⟨"u", some "DONE", "DONE x", []⟩]
            ⟨"u", some "DONE", "DONE x", []⟩
            (by decide) (by decide) rfl (by decide) rfl⟩
